import Mathlib

/-!
Verification development for the mini_timebot repository.

The file shallowly embeds the parts of the code that the verified
properties talk about:

* `oasis/forum.py` — the `Post` record and the `DiscussionForum`
  operations `publish`, `vote`, `get_top_posts` (the `asyncio.Lock`
  makes each operation atomic, so each is modelled as a pure state
  transformer; `timestamp`, a wall-clock float never consulted by any
  operation, is omitted).
* `oasis/engine.py` — expert selection in `DiscussionEngine.__init__`,
  the `_run_parallel` round loop, `_consensus_reached`, and the
  `run` lifecycle wrapper.
* `src/agent.py` — `MiniTimeAgent._sanitize_messages` and
  `UserAwareToolNode.__call__` over an embedded message type.
* `src/mainagent.py` — the `asyncio.CancelledError` repair block of
  `_stream_worker`.
* `src/time.py` — the HTTP request built by `trigger_agent` when a
  cron job fires.

Python `dict[str, str]` values (`Post.voters`) are modelled as
association lists ordered by insertion, Python `list` as `List`,
`None`-able values as `Option`.  Python string keys/values stay
`String`.
-/

namespace MiniTimebot

/-! ## Forum data model (`oasis/forum.py`) -/

/-- A single post / reply in a discussion thread (`Post` dataclass,
`forum.py` lines 10-20).  `voters` maps voter name to the direction
string, insertion ordered. -/
structure Post where
  id : Nat
  author : String
  content : String
  reply_to : Option Nat
  upvotes : Nat
  downvotes : Nat
  voters : List (String × String)
deriving Repr, DecidableEq

/-- The mutable state of `DiscussionForum` (`forum.py` lines 29-40).
The `asyncio.Lock` and the wall-clock `created_at` are omitted:
every public operation holds the lock for its whole body, so each
operation is one atomic state transformer. -/
structure DiscussionForum where
  topic_id : String
  question : String
  user_id : String
  max_rounds : Nat
  current_round : Nat
  posts : List Post
  conclusion : Option String
  status : String
  counter : Nat
deriving Repr, DecidableEq

/-- `DiscussionForum.__init__` (`forum.py` lines 29-40). -/
def initForum (topic_id question user_id : String) (max_rounds : Nat) : DiscussionForum :=
  { topic_id := topic_id
    question := question
    user_id := user_id
    max_rounds := max_rounds
    current_round := 0
    posts := []
    conclusion := none
    status := "pending"
    counter := 0 }

/-- `DiscussionForum.publish` (`forum.py` lines 42-53): bump the
counter, append a fresh post, return state and post. -/
def DiscussionForum.publish (f : DiscussionForum) (author content : String)
    (reply_to : Option Nat) : DiscussionForum × Post :=
  let counter := f.counter + 1
  let post : Post :=
    { id := counter
      author := author
      content := content
      reply_to := reply_to
      upvotes := 0
      downvotes := 0
      voters := [] }
  ({ f with counter := counter, posts := f.posts ++ [post] }, post)

/-- The in-place mutation `vote` performs on the post found by `_find`
(`forum.py` lines 59-64): record the voter and bump the matching
counter.  The guard (`voter != post.author and voter not in
post.voters`) is part of this function so that a failed guard leaves
the post unchanged, exactly as in the source. -/
def votePost (p : Post) (voter direction : String) : Post :=
  if voter ≠ p.author ∧ p.voters.all (fun v => v.1 ≠ voter) then
    { p with
      voters := p.voters ++ [(voter, direction)]
      upvotes := if direction = "up" then p.upvotes + 1 else p.upvotes
      downvotes := if direction = "up" then p.downvotes else p.downvotes + 1 }
  else p

/-- `_find` returns the first post with the given id and `vote` mutates
it in place; this helper rewrites exactly that first match. -/
def voteUpdate (voter : String) (post_id : Nat) (direction : String) :
    List Post → List Post
  | [] => []
  | p :: ps =>
    if p.id = post_id then votePost p voter direction :: ps
    else p :: voteUpdate voter post_id direction ps

/-- `DiscussionForum.vote` (`forum.py` lines 55-64).  A missing
`post_id` leaves the state unchanged (`_find` returns `None` and the
`if post` guard fails). -/
def DiscussionForum.vote (f : DiscussionForum) (voter : String) (post_id : Nat)
    (direction : String) : DiscussionForum :=
  { f with posts := voteUpdate voter post_id direction f.posts }

/-- Net score used as the sort key of `get_top_posts`
(`forum.py` line 78: `p.upvotes - p.downvotes`). -/
def netScore (p : Post) : Int := (p.upvotes : Int) - (p.downvotes : Int)

/-- One insertion step of a stable descending sort on `netScore`: the
new element goes after every already-placed element with an equal or
larger score.  Folding this over the list left-to-right yields exactly
the output of Python `sorted(key=net, reverse=True)`, which is the
unique stable descending ordering. -/
def insertByNet (p : Post) : List Post → List Post
  | [] => [p]
  | q :: qs => if netScore q < netScore p then p :: q :: qs else q :: insertByNet p qs

/-- Stable descending sort by net score, modelling
`sorted(self.posts, key=lambda p: p.upvotes - p.downvotes, reverse=True)`. -/
def sortByNetDesc (posts : List Post) : List Post :=
  posts.foldl (fun acc p => insertByNet p acc) []

/-- `DiscussionForum.get_top_posts` (`forum.py` lines 73-80). -/
def DiscussionForum.get_top_posts (f : DiscussionForum) (n : Nat) : List Post :=
  (sortByNetDesc f.posts).take n

/-! ## Forum operations and reachable states -/

/-- The two mutating operations of the forum board. -/
inductive ForumOp where
  | publish (author content : String) (reply_to : Option Nat)
  | vote (voter : String) (post_id : Nat) (direction : String)
deriving Repr, DecidableEq

def applyOp (f : DiscussionForum) : ForumOp → DiscussionForum
  | .publish a c r => (f.publish a c r).1
  | .vote v pid d => f.vote v pid d

/-- A forum state reached by a sequence of publish/vote operations. -/
def runOps (f : DiscussionForum) (ops : List ForumOp) : DiscussionForum :=
  ops.foldl applyOp f

/-! ## C10: voting on a nonexistent post is a silent no-op -/

theorem voteUpdate_no_match (voter : String) (post_id : Nat) (direction : String)
    (ps : List Post) (h : ∀ p ∈ ps, p.id ≠ post_id) :
    voteUpdate voter post_id direction ps = ps := by
  induction ps with
  | nil => rfl
  | cons p ps ih =>
    have hp : p.id ≠ post_id := h p (List.mem_cons_self p ps)
    simp only [voteUpdate, if_neg hp]
    rw [ih (fun q hq => h q (List.mem_cons_of_mem p hq))]

/-- C10: Calling `vote(voter, post_id, direction)` with a `post_id`
matching no existing post leaves the forum state entirely unchanged
and raises no error: `_find` returns `None`, the `if post` guard
fails, and the body performs no mutation (the embedding is a total
function, mirroring that no exception path exists in the source). -/
theorem C10_vote_unknown_post_noop (f : DiscussionForum) (voter : String)
    (post_id : Nat) (direction : String) (h : ∀ p ∈ f.posts, p.id ≠ post_id) :
    f.vote voter post_id direction = f := by
  show { f with posts := voteUpdate voter post_id direction f.posts } = f
  rw [voteUpdate_no_match voter post_id direction f.posts h]

/-- Witness for C10 at a concrete state: one post with id 1, vote on id 2. -/
theorem C10_vote_unknown_post_noop_witness :
    (∀ p ∈ ((initForum "t" "q" "u" 5).publish "alice" "hi" none).1.posts, p.id ≠ 2) ∧
      ((initForum "t" "q" "u" 5).publish "alice" "hi" none).1.vote "bob" 2 "up" =
        ((initForum "t" "q" "u" 5).publish "alice" "hi" none).1 :=
  ⟨by decide, C10_vote_unknown_post_noop _ "bob" 2 "up" (by decide)⟩

/-! ## C1: voters invariants under publish/vote -/

/-- Number of voters of `p` mapped to `"up"`. -/
def upCount (p : Post) : Nat := (p.voters.filter (fun v => v.2 = "up")).length

/-- Number of voters of `p` mapped to `"down"`. -/
def downCount (p : Post) : Nat := (p.voters.filter (fun v => v.2 = "down")).length

/-- Well-formedness of one post: the author never votes, voters are
recorded at most once, every recorded direction is `"up"` or `"down"`,
and the two counters equal the cardinalities of the corresponding
voter subsets. -/
def postWF (p : Post) : Prop :=
  (∀ v ∈ p.voters, v.1 ≠ p.author) ∧
  (p.voters.map Prod.fst).Nodup ∧
  (∀ v ∈ p.voters, v.2 = "up" ∨ v.2 = "down") ∧
  p.upvotes = upCount p ∧ p.downvotes = downCount p

/-- A vote with a direction in `{"up", "down"}` preserves `postWF`. -/
theorem votePost_postWF (p : Post) (voter direction : String)
    (hdir : direction = "up" ∨ direction = "down") (hwf : postWF p) :
    postWF (votePost p voter direction) := by
  obtain ⟨hauthor, hnodup, hdirs, hup, hdown⟩ := hwf
  unfold votePost
  by_cases hc : voter ≠ p.author ∧ p.voters.all (fun v => v.1 ≠ voter)
  · rw [if_pos hc]
    obtain ⟨hne, hfresh⟩ := hc
    have hfresh' : ∀ v ∈ p.voters, v.1 ≠ voter := by
      intro v hv
      have := List.all_eq_true.mp hfresh v hv
      simpa using this
    refine ⟨?_, ?_, ?_, ?_, ?_⟩
    · intro v hv
      rcases List.mem_append.mp hv with h | h
      · exact hauthor v h
      · simp only [List.mem_singleton] at h
        subst h
        exact hne
    · simp only [List.map_append, List.map_cons, List.map_nil]
      rw [List.nodup_append]
      refine ⟨hnodup, List.nodup_singleton _, ?_⟩
      intro a ha hb
      simp only [List.mem_singleton] at hb
      subst hb
      obtain ⟨v, hv, hv1⟩ := List.mem_map.mp ha
      exact hfresh' v hv hv1
    · intro v hv
      rcases List.mem_append.mp hv with h | h
      · exact hdirs v h
      · simp only [List.mem_singleton] at h
        subst h
        exact hdir
    · simp only [upCount, List.filter_append, List.length_append]
      rcases hdir with h | h <;> subst h <;>
        simp [upCount] at hup ⊢ <;> omega
    · simp only [downCount, List.filter_append, List.length_append]
      rcases hdir with h | h <;> subst h <;>
        simp [downCount] at hdown ⊢ <;> omega
  · rw [if_neg hc]
    exact ⟨hauthor, hnodup, hdirs, hup, hdown⟩

/-- `voteUpdate` preserves well-formedness of every post in the list. -/
theorem voteUpdate_postWF (voter : String) (post_id : Nat) (direction : String)
    (hdir : direction = "up" ∨ direction = "down") (ps : List Post)
    (h : ∀ p ∈ ps, postWF p) :
    ∀ p ∈ voteUpdate voter post_id direction ps, postWF p := by
  induction ps with
  | nil => intro p hp; simp [voteUpdate] at hp
  | cons q qs ih =>
    intro p hp
    simp only [voteUpdate] at hp
    by_cases hq : q.id = post_id
    · rw [if_pos hq] at hp
      rcases List.mem_cons.mp hp with h1 | h1
      · subst h1
        exact votePost_postWF q voter direction hdir (h q (List.mem_cons_self q qs))
      · exact h p (List.mem_cons_of_mem q h1)
    · rw [if_neg hq] at hp
      rcases List.mem_cons.mp hp with h1 | h1
      · subst h1
        exact h p (List.mem_cons_self p qs)
      · exact ih (fun r hr => h r (List.mem_cons_of_mem q hr)) p h1

/-- A vote operation is valid when its direction is `"up"` or `"down"`
(the spec's data model types directions as `'up' | 'down'`, and both
in-repo callers check `direction in ("up", "down")` before calling
`forum.vote`). -/
def opValid : ForumOp → Prop
  | .publish _ _ _ => True
  | .vote _ _ d => d = "up" ∨ d = "down"

theorem runOps_postWF (f : DiscussionForum) (ops : List ForumOp)
    (hops : ∀ op ∈ ops, opValid op) (hf : ∀ p ∈ f.posts, postWF p) :
    ∀ p ∈ (runOps f ops).posts, postWF p := by
  induction ops generalizing f with
  | nil => exact hf
  | cons op ops ih =>
    refine ih (applyOp f op) (fun o ho => hops o (List.mem_cons_of_mem op ho)) ?_
    cases op with
    | publish a c r =>
      intro p hp
      simp only [applyOp, DiscussionForum.publish] at hp
      rcases List.mem_append.mp hp with h1 | h1
      · exact hf p h1
      · simp only [List.mem_singleton] at h1
        subst h1
        refine ⟨?_, ?_, ?_, ?_, ?_⟩ <;> simp [upCount, downCount]
    | vote v pid d =>
      have hd : d = "up" ∨ d = "down" := hops _ (List.mem_cons_self _ ops)
      exact voteUpdate_postWF v pid d hd f.posts hf

/-- Splitting a voter list by direction: when every direction is
`"up"` or `"down"`, the list length is the up-count plus the
down-count. -/
theorem length_eq_up_add_down (l : List (String × String))
    (h : ∀ v ∈ l, v.2 = "up" ∨ v.2 = "down") :
    l.length = (l.filter (fun v => v.2 = "up")).length +
      (l.filter (fun v => v.2 = "down")).length := by
  induction l with
  | nil => rfl
  | cons v vs ih =>
    have hv := h v (List.mem_cons_self v vs)
    have ihv := ih (fun w hw => h w (List.mem_cons_of_mem v hw))
    rcases hv with h1 | h1 <;>
      simp only [List.filter_cons, List.length_cons, h1] <;> simp <;> omega

/-- C1: at every state reachable by publish and vote operations (with
directions drawn from `'up' | 'down'` as the spec's data model types
them), every post satisfies: the author is not among its voters, each
voter appears at most once, `upvotes`/`downvotes` equal the
cardinalities of the up/down voter subsets, and consequently
`|voters| = upvotes + downvotes`. -/
theorem C1_forum_post_invariants (t q u : String) (m : Nat) (ops : List ForumOp)
    (hops : ∀ op ∈ ops, opValid op) :
    ∀ p ∈ (runOps (initForum t q u m) ops).posts,
      (∀ v ∈ p.voters, v.1 ≠ p.author) ∧
      (p.voters.map Prod.fst).Nodup ∧
      p.upvotes = upCount p ∧
      p.downvotes = downCount p ∧
      p.voters.length = p.upvotes + p.downvotes := by
  intro p hp
  have hwf := runOps_postWF (initForum t q u m) ops hops (by simp [initForum]) p hp
  obtain ⟨h1, h2, h3, h4, h5⟩ := hwf
  refine ⟨h1, h2, h4, h5, ?_⟩
  rw [h4, h5]
  exact length_eq_up_add_down p.voters h3

/-- Witness for C1: publish two posts, cast an up and a down vote. -/
theorem C1_forum_post_invariants_witness :
    (∀ op ∈ [ForumOp.publish "alice" "a" none, ForumOp.publish "bob" "b" (some 1),
        ForumOp.vote "bob" 1 "up", ForumOp.vote "alice" 2 "down"], opValid op) ∧
      ∀ p ∈ (runOps (initForum "t" "q" "u" 5)
          [ForumOp.publish "alice" "a" none, ForumOp.publish "bob" "b" (some 1),
            ForumOp.vote "bob" 1 "up", ForumOp.vote "alice" 2 "down"]).posts,
        (∀ v ∈ p.voters, v.1 ≠ p.author) ∧
        (p.voters.map Prod.fst).Nodup ∧
        p.upvotes = upCount p ∧
        p.downvotes = downCount p ∧
        p.voters.length = p.upvotes + p.downvotes :=
  ⟨by simp [opValid], C1_forum_post_invariants "t" "q" "u" 5 _ (by simp [opValid])⟩

/-! ## C7: `get_top_posts` sorts by net score, ties by ascending id -/

/-- The ordering stated by the spec for `top_k`: net score strictly
descending, ties broken by ascending post id. -/
def claimOrder (a b : Post) : Prop :=
  netScore b < netScore a ∨ (netScore a = netScore b ∧ a.id < b.id)

theorem votePost_id (p : Post) (voter direction : String) :
    (votePost p voter direction).id = p.id := by
  unfold votePost
  split <;> rfl

theorem voteUpdate_map_id (voter : String) (post_id : Nat) (direction : String)
    (ps : List Post) :
    (voteUpdate voter post_id direction ps).map Post.id = ps.map Post.id := by
  induction ps with
  | nil => rfl
  | cons p ps ih =>
    simp only [voteUpdate]
    split
    · simp [votePost_id]
    · simp [ih]

/-- Structural well-formedness of the forum: post ids strictly
increase along the list and never exceed the counter. -/
def forumIdsWF (f : DiscussionForum) : Prop :=
  (f.posts.map Post.id).Pairwise (· < ·) ∧ ∀ p ∈ f.posts, p.id ≤ f.counter

theorem runOps_forumIdsWF (f : DiscussionForum) (ops : List ForumOp)
    (hf : forumIdsWF f) : forumIdsWF (runOps f ops) := by
  induction ops generalizing f with
  | nil => exact hf
  | cons op ops ih =>
    refine ih (applyOp f op) ?_
    obtain ⟨hpair, hle⟩ := hf
    cases op with
    | publish a c r =>
      constructor
      · simp only [applyOp, DiscussionForum.publish, List.map_append, List.map_cons,
          List.map_nil]
        rw [List.pairwise_append]
        refine ⟨hpair, List.pairwise_singleton _ _, ?_⟩
        intro x hx y hy
        simp only [List.mem_singleton] at hy
        subst hy
        obtain ⟨p, hp, hpx⟩ := List.mem_map.mp hx
        have := hle p hp
        omega
      · intro p hp
        simp only [applyOp, DiscussionForum.publish] at hp ⊢
        rcases List.mem_append.mp hp with h1 | h1
        · have := hle p h1; omega
        · simp only [List.mem_singleton] at h1
          subst h1
          rfl
    | vote v pid d =>
      constructor
      · show ((voteUpdate v pid d f.posts).map Post.id).Pairwise (· < ·)
        rw [voteUpdate_map_id]
        exact hpair
      · intro p hp
        show p.id ≤ f.counter
        have hmem : p.id ∈ (voteUpdate v pid d f.posts).map Post.id :=
          List.mem_map_of_mem Post.id hp
        rw [voteUpdate_map_id] at hmem
        obtain ⟨q, hq, hqid⟩ := List.mem_map.mp hmem
        rw [← hqid]
        exact hle q hq

/-- Inserting a post whose id exceeds every id already placed keeps
the accumulator sorted in the claim's order, and permutes. -/
theorem insertByNet_claimOrder (p : Post) (acc : List Post)
    (hacc : acc.Pairwise claimOrder) (hid : ∀ q ∈ acc, q.id < p.id) :
    (insertByNet p acc).Pairwise claimOrder ∧ (insertByNet p acc).Perm (p :: acc) := by
  induction acc with
  | nil => exact ⟨List.pairwise_singleton _ _, List.Perm.refl _⟩
  | cons q qs ih =>
    simp only [insertByNet]
    by_cases hlt : netScore q < netScore p
    · rw [if_pos hlt]
      refine ⟨?_, List.Perm.refl _⟩
      rw [List.pairwise_cons]
      refine ⟨?_, hacc⟩
      intro x hx
      rcases List.mem_cons.mp hx with h1 | h1
      · subst h1
        exact Or.inl hlt
      · have hqx : claimOrder q x := (List.pairwise_cons.mp hacc).1 x h1
        left
        rcases hqx with h2 | h2
        · omega
        · omega
    · rw [if_neg hlt]
      have hqs : qs.Pairwise claimOrder := (List.pairwise_cons.mp hacc).2
      obtain ⟨ihp, ihperm⟩ := ih hqs (fun r hr => hid r (List.mem_cons_of_mem q hr))
      constructor
      · rw [List.pairwise_cons]
        refine ⟨?_, ihp⟩
        intro x hx
        have hx' : x ∈ p :: qs := ihperm.mem_iff.mp hx
        rcases List.mem_cons.mp hx' with h1 | h1
        · subst h1
          by_cases heq : netScore q = netScore x
          · exact Or.inr ⟨heq, hid q (List.mem_cons_self q qs)⟩
          · left; omega
        · exact (List.pairwise_cons.mp hacc).1 x h1
      · exact (ihperm.cons q).trans (List.Perm.swap p q qs)

/-- Folding the stable insertion over a list with strictly increasing
ids produces a permutation sorted in the claim's order. -/
theorem sortAux_claimOrder (l acc : List Post)
    (hacc : acc.Pairwise claimOrder)
    (hl : (l.map Post.id).Pairwise (· < ·))
    (hcross : ∀ q ∈ acc, ∀ r ∈ l, q.id < r.id) :
    (l.foldl (fun acc p => insertByNet p acc) acc).Pairwise claimOrder ∧
      (l.foldl (fun acc p => insertByNet p acc) acc).Perm (acc ++ l) := by
  induction l generalizing acc with
  | nil => exact ⟨hacc, by simp⟩
  | cons p rest ih =>
    simp only [List.foldl_cons]
    obtain ⟨hins, hinsperm⟩ :=
      insertByNet_claimOrder p acc hacc
        (fun q hq => hcross q hq p (List.mem_cons_self p rest))
    have hrest : (rest.map Post.id).Pairwise (· < ·) := by
      simp only [List.map_cons, List.pairwise_cons] at hl
      exact hl.2
    have hcross' : ∀ q ∈ insertByNet p acc, ∀ r ∈ rest, q.id < r.id := by
      intro q hq r hr
      have hq' : q ∈ p :: acc := hinsperm.mem_iff.mp hq
      rcases List.mem_cons.mp hq' with h1 | h1
      · subst h1
        simp only [List.map_cons, List.pairwise_cons] at hl
        exact hl.1 r.id (List.mem_map_of_mem Post.id hr)
      · exact hcross q h1 r (List.mem_cons_of_mem p hr)
    obtain ⟨hp1, hp2⟩ := ih (insertByNet p acc) hins hrest hcross'
    exact ⟨hp1, hp2.trans ((hinsperm.append_right rest).trans List.perm_middle.symm)⟩

/-- C7: on every reachable forum state, `get_top_posts n` is the first
`n` posts of an ordering of all posts sorted by net score
(`upvotes − downvotes`) descending with ties broken by ascending id. -/
theorem C7_get_top_posts_sorted (t q u : String) (m n : Nat) (ops : List ForumOp) :
    ∃ L : List Post,
      L.Perm (runOps (initForum t q u m) ops).posts ∧
      L.Pairwise claimOrder ∧
      (runOps (initForum t q u m) ops).get_top_posts n = L.take n := by
  obtain ⟨hpair, _⟩ :=
    runOps_forumIdsWF (initForum t q u m) ops (by constructor <;> simp [initForum])
  obtain ⟨hsorted, hperm⟩ :=
    sortAux_claimOrder (runOps (initForum t q u m) ops).posts [] List.Pairwise.nil
      hpair (by intro q hq; simp at hq)
  refine ⟨sortByNetDesc (runOps (initForum t q u m) ops).posts, ?_, hsorted, rfl⟩
  simpa [sortByNetDesc] using hperm

/-! ## Discussion engine (`oasis/engine.py`) -/

/-- One expert configuration (`oasis/experts.py`).  The Python float
`temperature` is modelled as a rational; it plays no role in any
verified property. -/
structure ExpertConfig where
  name : String
  tag : String
  persona : String
  temperature : ℚ
deriving Repr, DecidableEq

/-- Expert selection in `DiscussionEngine.__init__` (`engine.py` lines
80-85): start from all visible experts, filter by tag when a non-empty
tag list is given (Python truthiness), and fall back to all experts
when the filter leaves nothing. -/
def selectExpertConfigs (all_configs : List ExpertConfig)
    (expert_tags : Option (List String)) : List ExpertConfig :=
  let configs :=
    match expert_tags with
    | none => all_configs
    | some tags =>
      if tags.isEmpty then all_configs
      else all_configs.filter (fun c => tags.contains c.tag)
  if configs.isEmpty then all_configs else configs

/-- C9: a non-empty `expert_tags` selection matching no visible tag
falls back to all visible experts, and the constructed expert list
(one `ExpertAgent`/`BotSessionExpert` per selected config) is
non-empty whenever at least one expert is visible. -/
theorem C9_expert_selection_fallback (all_configs : List ExpertConfig)
    (tags : List String) (expert_tags : Option (List String)) :
    (tags ≠ [] → all_configs.filter (fun c => tags.contains c.tag) = [] →
      selectExpertConfigs all_configs (some tags) = all_configs) ∧
    (all_configs ≠ [] → selectExpertConfigs all_configs expert_tags ≠ []) := by
  constructor
  · intro htags hfilter
    cases tags with
    | nil => exact absurd rfl htags
    | cons a l =>
      simp only [selectExpertConfigs, List.isEmpty_cons, Bool.false_eq_true, if_false,
        hfilter, List.isEmpty_nil, if_true]
  · intro hall
    unfold selectExpertConfigs
    set configs :=
      (match expert_tags with
        | none => all_configs
        | some tags =>
          if tags.isEmpty then all_configs
          else all_configs.filter (fun c => tags.contains c.tag)) with hconfigs
    by_cases hc : configs.isEmpty = true
    · rw [if_pos hc]
      exact hall
    · rw [if_neg hc]
      intro hcontra
      rw [hcontra] at hc
      exact hc rfl

/-- Witness for C9: one visible expert, a selection naming an unknown
tag. -/
theorem C9_expert_selection_fallback_witness :
    ((["zzz"] : List String) ≠ [] →
        ([⟨"创意专家", "creative", "p", 9/10⟩] : List ExpertConfig).filter
          (fun c => ["zzz"].contains c.tag) = [] →
      selectExpertConfigs [⟨"创意专家", "creative", "p", 9/10⟩] (some ["zzz"]) =
        [⟨"创意专家", "creative", "p", 9/10⟩]) ∧
    selectExpertConfigs [⟨"创意专家", "creative", "p", 9/10⟩] (some ["zzz"]) =
      [⟨"创意专家", "creative", "p", 9/10⟩] ∧
    selectExpertConfigs [⟨"创意专家", "creative", "p", 9/10⟩] (some ["zzz"]) ≠ [] := by
  have h := C9_expert_selection_fallback
    [⟨"创意专家", "creative", "p", 9/10⟩] ["zzz"] (some ["zzz"])
  exact ⟨h.1, h.1 (by decide) (by decide), h.2 (by decide)⟩

/-! ## C5: consensus threshold -/

/-- `DiscussionEngine._consensus_reached` (`engine.py` lines 250-257):
the top post of `get_top_posts(1)` must have
`upvotes >= len(self.experts) * 0.7`.  The Python float literal `0.7`
is modelled as the exact rational `7 / 10`; for integer vote counts
and realistic expert counts the binary-float comparison and the
rational comparison agree. -/
def consensus_reached (numExperts : Nat) (f : DiscussionForum) : Bool :=
  match f.get_top_posts 1 with
  | [] => false
  | top :: _ => decide ((top.upvotes : ℚ) ≥ (numExperts : ℚ) * (7 / 10))

theorem ratThreshold_iff (u n : Nat) :
    ((u : ℚ) ≥ (n : ℚ) * (7 / 10)) ↔ 7 * n ≤ 10 * u := by
  rw [ge_iff_le]
  constructor
  · intro h
    have h2 : (7 * n : ℚ) ≤ 10 * u := by linarith
    exact_mod_cast h2
  · intro h
    have h2 : (7 * n : ℚ) ≤ 10 * u := by exact_mod_cast h
    push_cast at h2
    linarith

/-- `⌈0.7 n⌉ = (7 n + 9) / 10` in natural division, and the code's
comparison is equivalent to reaching that ceiling. -/
theorem ceilThreshold_iff (u n : Nat) : 7 * n ≤ 10 * u ↔ (7 * n + 9) / 10 ≤ u := by
  have h1 := Nat.div_add_mod (7 * n + 9) 10
  have h2 : (7 * n + 9) % 10 < 10 := Nat.mod_lt _ (by norm_num)
  omega

/-- The round loop of `DiscussionEngine._run_parallel` (`engine.py`
lines 167-180).  `participate round_num` abstracts the joint effect of
`asyncio.gather(*[expert.participate(forum) ...])` in round
`round_num` (0-indexed) as an arbitrary forum transformer;
`remaining` counts the iterations left in
`range(max_rounds)`.  The result pairs the final forum with
`some r` when the loop broke out of the consensus check at 1-indexed
round `r`, `none` when it exhausted the range. -/
def runRoundsAux (participate : Nat → DiscussionForum → DiscussionForum)
    (numExperts : Nat) : Nat → Nat → DiscussionForum → DiscussionForum × Option Nat
  | 0, _, f => (f, none)
  | remaining + 1, round_num, f =>
    let f1 := participate round_num { f with current_round := round_num + 1 }
    if 1 ≤ round_num ∧ consensus_reached numExperts f1 = true then
      (f1, some (round_num + 1))
    else
      runRoundsAux participate numExperts remaining (round_num + 1) f1

/-- `_run_parallel`: all rounds starting from `round_num = 0`. -/
def runParallel (participate : Nat → DiscussionForum → DiscussionForum)
    (numExperts maxRounds : Nat) (f : DiscussionForum) :
    DiscussionForum × Option Nat :=
  runRoundsAux participate numExperts maxRounds 0 f

theorem runRoundsAux_early_stop (participate : Nat → DiscussionForum → DiscussionForum)
    (numExperts : Nat) (remaining round_num : Nat) (f fF : DiscussionForum) (r : Nat)
    (h : runRoundsAux participate numExperts remaining round_num f = (fF, some r)) :
    2 ≤ r ∧ consensus_reached numExperts fF = true := by
  induction remaining generalizing round_num f with
  | zero => simp [runRoundsAux] at h
  | succ remaining ih =>
    simp only [runRoundsAux] at h
    split at h
    · rename_i hcond
      obtain ⟨h1, h2⟩ := hcond
      obtain ⟨hf, hr⟩ := Prod.mk.injEq .. ▸ h
      injection h with hf' hr'
      injection hr' with hr''
      constructor
      · omega
      · rw [← hf']; exact h2
    · exact ih _ _ h

/-- C5: (forward) if the parallel round loop terminated early citing
consensus at 1-indexed round `r`, then `r > 1` and at that moment the
`get_top_posts(1)` post had `upvotes ≥ ⌈0.7 × numExperts⌉`;
(converse) whenever a round with index ≥ 2 that actually runs ends
with the top post at or above that ceiling, the loop breaks at exactly
that round. -/
theorem C5_consensus_threshold :
    (∀ (participate : Nat → DiscussionForum → DiscussionForum)
        (numExperts maxRounds : Nat) (f fF : DiscussionForum) (r : Nat),
      runParallel participate numExperts maxRounds f = (fF, some r) →
      2 ≤ r ∧ ∃ top rest, fF.get_top_posts 1 = top :: rest ∧
        (7 * numExperts + 9) / 10 ≤ top.upvotes) ∧
    (∀ (participate : Nat → DiscussionForum → DiscussionForum)
        (numExperts remaining round_num : Nat) (f : DiscussionForum)
        (top : Post) (rest : List Post),
      1 ≤ round_num →
      (participate round_num { f with current_round := round_num + 1 }).get_top_posts 1 =
        top :: rest →
      (7 * numExperts + 9) / 10 ≤ top.upvotes →
      runRoundsAux participate numExperts (remaining + 1) round_num f =
        (participate round_num { f with current_round := round_num + 1 },
          some (round_num + 1))) := by
  constructor
  · intro participate numExperts maxRounds f fF r h
    obtain ⟨hr, hcons⟩ :=
      runRoundsAux_early_stop participate numExperts maxRounds 0 f fF r h
    refine ⟨hr, ?_⟩
    unfold consensus_reached at hcons
    split at hcons
    · exact absurd hcons (by simp)
    · rename_i top rest htop
      refine ⟨top, rest, htop, ?_⟩
      have := of_decide_eq_true hcons
      exact (ceilThreshold_iff _ _).mp ((ratThreshold_iff _ _).mp this)
  · intro participate numExperts remaining round_num f top rest h1 htop hceil
    have hcons : consensus_reached numExperts
        (participate round_num { f with current_round := round_num + 1 }) = true := by
      unfold consensus_reached
      rw [htop]
      exact decide_eq_true ((ratThreshold_iff _ _).mpr ((ceilThreshold_iff _ _).mpr hceil))
    simp only [runRoundsAux]
    rw [if_pos ⟨h1, hcons⟩]

/-- Concrete post used by the C5 witness. -/
def c5Post : Post :=
  { id := 1, author := "a", content := "c", reply_to := none,
    upvotes := 1, downvotes := 0, voters := [("b", "up")] }

/-- Concrete round activity used by the C5 witness: every round leaves
the board holding `c5Post`. -/
def c5Participate : Nat → DiscussionForum → DiscussionForum :=
  fun _ g => { g with posts := [c5Post] }

/-- Final forum of the C5 witness run. -/
def c5Final : DiscussionForum :=
  { initForum "t" "q" "u" 5 with current_round := 2, posts := [c5Post] }

/-- Witness for C5 at a concrete run: one expert, a post with one
upvote, threshold reached after round 2. -/
theorem C5_consensus_threshold_witness :
    (2 ≤ 2 ∧ ∃ top rest, c5Final.get_top_posts 1 = top :: rest ∧
      (7 * 1 + 9) / 10 ≤ top.upvotes) ∧
    runRoundsAux c5Participate 1 1 1
        { initForum "t" "q" "u" 5 with current_round := 1 } =
      (c5Participate 1
        { { initForum "t" "q" "u" 5 with current_round := 1 } with current_round := 2 },
        some 2) := by
  constructor
  · exact C5_consensus_threshold.1 c5Participate 1 2 (initForum "t" "q" "u" 5)
      c5Final 2 (by
        norm_num [runParallel, runRoundsAux, c5Participate, consensus_reached,
          DiscussionForum.get_top_posts, sortByNetDesc, insertByNet, c5Post, c5Final,
          initForum])
  · exact C5_consensus_threshold.2 c5Participate 1 0 1
      { initForum "t" "q" "u" 5 with current_round := 1 } c5Post [] (by decide)
      (by rfl) (by decide)

/-! ## C6: `DiscussionEngine.run` always reaches a terminal status -/

/-- `DiscussionEngine.run` (`engine.py` lines 139-165).  The body of
the `try` block — the round loop (`_run_scheduled` or
`_run_parallel`) — is abstracted as `loopOutcome`, which either
returns the mutated forum or raises with an exception text and the
forum as mutated so far; `_summarize` never raises (it catches its
own LLM failure and returns the failure text), so it is the total
function `summaryText`.  `run` first sets status `"discussing"`, then
on success stores the summary and sets `"concluded"`, and on an
escaping exception sets `"error"` and records the reason in the
conclusion field.  (`asyncio` task cancellation, which bypasses
`except Exception`, is outside this sequential model; the server's
shutdown hook separately marks such topics `"error"`.) -/
def engineRun
    (loopOutcome : DiscussionForum → Except (String × DiscussionForum) DiscussionForum)
    (summaryText : DiscussionForum → String) (f0 : DiscussionForum) : DiscussionForum :=
  let f1 := { f0 with status := "discussing" }
  match loopOutcome f1 with
  | .ok f2 => { f2 with conclusion := some (summaryText f2), status := "concluded" }
  | .error (e, f2) =>
    { f2 with status := "error", conclusion := some ("讨论过程中出现错误: " ++ e) }

/-- C6: whatever the round loop does — completes or raises — when
`run` exits, the status is terminal (`"concluded"` with the conclusion
set to the summary, or `"error"` with the failure reason recorded in
the conclusion field) and never remains `"discussing"`. -/
theorem C6_run_reaches_terminal_status
    (loopOutcome : DiscussionForum → Except (String × DiscussionForum) DiscussionForum)
    (summaryText : DiscussionForum → String) (f0 : DiscussionForum) :
    ((engineRun loopOutcome summaryText f0).status = "concluded" ∨
      (engineRun loopOutcome summaryText f0).status = "error") ∧
    (engineRun loopOutcome summaryText f0).status ≠ "discussing" ∧
    (engineRun loopOutcome summaryText f0).conclusion ≠ none ∧
    (∀ f2, loopOutcome { f0 with status := "discussing" } = .ok f2 →
      (engineRun loopOutcome summaryText f0).status = "concluded" ∧
        (engineRun loopOutcome summaryText f0).conclusion = some (summaryText f2)) ∧
    (∀ e f2, loopOutcome { f0 with status := "discussing" } = .error (e, f2) →
      (engineRun loopOutcome summaryText f0).status = "error" ∧
        (engineRun loopOutcome summaryText f0).conclusion =
          some ("讨论过程中出现错误: " ++ e)) := by
  simp only [engineRun]
  cases hres : loopOutcome { f0 with status := "discussing" } with
  | ok f2 =>
    refine ⟨Or.inl rfl, by simp, by simp, ?_, ?_⟩
    · intro g hg
      injection hg with hg
      subst hg
      exact ⟨rfl, rfl⟩
    · intro e g hg
      exact absurd hg (by simp)
  | error eg =>
    obtain ⟨e, f2⟩ := eg
    refine ⟨Or.inr rfl, by simp, by simp, ?_, ?_⟩
    · intro g hg
      exact absurd hg (by simp)
    · intro e' g hg
      injection hg with hg
      rw [Prod.mk.injEq] at hg
      exact ⟨rfl, by rw [hg.1]⟩

/-- Witness for C6: a loop that raises on a concrete forum. -/
theorem C6_run_reaches_terminal_status_witness :
    (engineRun (fun g => .error ("boom", g)) (fun _ => "fine")
          (initForum "t" "q" "u" 5)).status = "error" ∧
      (engineRun (fun g => .error ("boom", g)) (fun _ => "fine")
          (initForum "t" "q" "u" 5)).conclusion =
        some ("讨论过程中出现错误: " ++ "boom") :=
  (C6_run_reaches_terminal_status (fun g => .error ("boom", g)) (fun _ => "fine")
      (initForum "t" "q" "u" 5)).2.2.2.2 "boom"
    { initForum "t" "q" "u" 5 with status := "discussing" } rfl

/-! ## Message model (`langchain` messages as used by `src/agent.py`
and `src/mainagent.py`) -/

/-- One tool-call request of an assistant message:
`{"id": ..., "name": ..., "args": {...}}`.  Arguments are an
insertion-ordered string map. -/
structure ToolCall where
  id : String
  name : String
  args : List (String × String)
deriving Repr, DecidableEq

/-- The four message kinds the agent persists or builds:
`SystemMessage`, `HumanMessage`, `AIMessage` (with its `tool_calls`
list), `ToolMessage` (with its `tool_call_id`).  Multimodal content is
irrelevant to the verified properties and collapsed to the content
string. -/
inductive Msg where
  | system (content : String)
  | human (content : String)
  | ai (content : String) (tool_calls : List ToolCall)
  | tool (content : String) (tool_call_id : String)
deriving Repr, DecidableEq

/-- All `tool_call_id`s answered somewhere in the list (the
`answered_ids` set of `_sanitize_messages`). -/
def answeredIds (msgs : List Msg) : List String :=
  msgs.filterMap fun m =>
    match m with
    | .tool _ i => some i
    | _ => none

/-- The tool calls of `calls` that have no reply in `answered`
(`unanswered_calls` in `_sanitize_messages`). -/
def unansweredCalls (answered : List String) (calls : List ToolCall) : List ToolCall :=
  calls.filter fun tc => !answered.contains tc.id

/-- One iteration of the trailing-message scan of
`_sanitize_messages` (`agent.py` lines 489-508) decides to pop the
current last message exactly when it is an `AIMessage` with a
non-empty `tool_calls` list, not all of its call ids are answered,
and it is not the case that all unanswered calls are external with a
non-empty external set. -/
def shouldPop (answered ext : List String) (m : Msg) : Bool :=
  match m with
  | .ai _ calls =>
    !calls.isEmpty && !calls.all (fun tc => answered.contains tc.id) &&
      !((unansweredCalls answered calls).all (fun tc => ext.contains tc.name) &&
          !ext.isEmpty)
  | _ => false

/-- The `while clean: ... clean.pop()` loop, acting on the reversed
list so that popping the last element is structural. -/
def sanitizeRev (answered ext : List String) : List Msg → List Msg
  | [] => []
  | m :: rest =>
    if shouldPop answered ext m then sanitizeRev answered ext rest else m :: rest

/-- `MiniTimeAgent._sanitize_messages` (`agent.py` lines 469-509).
`external_tool_names = None` and `= set()` coincide (the source
normalizes `None` to the empty set), so the parameter is a plain
list. -/
def sanitize_messages (msgs : List Msg) (external_tool_names : List String) : List Msg :=
  (sanitizeRev (answeredIds msgs) external_tool_names msgs.reverse).reverse

theorem sanitizeRev_drop (answered ext : List String) (l : List Msg) :
    ∃ j, sanitizeRev answered ext l = l.drop j ∧
      ∀ m ∈ l.take j, shouldPop answered ext m = true := by
  induction l with
  | nil => exact ⟨0, rfl, by simp⟩
  | cons m rest ih =>
    by_cases hm : shouldPop answered ext m = true
    · obtain ⟨j, hj, hbad⟩ := ih
      refine ⟨j + 1, ?_, ?_⟩
      · simp only [sanitizeRev, if_pos hm, List.drop_succ_cons]
        exact hj
      · intro x hx
        simp only [List.take_succ_cons] at hx
        rcases List.mem_cons.mp hx with h1 | h1
        · subst h1; exact hm
        · exact hbad x h1
    · refine ⟨0, ?_, by simp⟩
      simp [sanitizeRev, hm]

theorem sanitizeRev_length_le (answered ext : List String) (l : List Msg) :
    (sanitizeRev answered ext l).length ≤ l.length := by
  induction l with
  | nil => exact Nat.le_refl 0
  | cons m rest ih =>
    simp only [sanitizeRev]
    split
    · exact Nat.le_trans ih (by simp)
    · simp

theorem allContains_eq_true (answered : List String) (calls : List ToolCall) :
    (calls.all fun tc => answered.contains tc.id) = true ↔
      ∀ tc ∈ calls, tc.id ∈ answered := by
  simp [List.all_eq_true, List.elem_iff]

theorem allExt_eq_true (answered ext : List String) (calls : List ToolCall) :
    ((unansweredCalls answered calls).all fun tc => ext.contains tc.name) = true ↔
      ∀ tc ∈ calls, tc.id ∉ answered → tc.name ∈ ext := by
  simp [unansweredCalls, List.all_eq_true, List.mem_filter, List.elem_iff,
    or_iff_not_imp_left]

/-- The pop condition in the vocabulary of the spec: an assistant
message carrying tool-call requests is popped exactly when some of
its calls lack replies and the unanswered ones are not all external. -/
theorem shouldPop_iff (answered ext : List String) (m : Msg) :
    shouldPop answered ext m = true ↔
      ∃ content calls, m = Msg.ai content calls ∧ calls ≠ [] ∧
        ¬ (∀ tc ∈ calls, tc.id ∈ answered) ∧
        ¬ (∀ tc ∈ calls, tc.id ∉ answered → tc.name ∈ ext) := by
  cases m with
  | system c => simp [shouldPop]
  | human c => simp [shouldPop]
  | tool c i => simp [shouldPop]
  | ai c calls =>
    simp only [shouldPop, Bool.and_eq_true, Bool.not_eq_true', List.isEmpty_eq_false,
      Msg.ai.injEq]
    constructor
    · rintro ⟨⟨hne, hall⟩, hext⟩
      have hnall : ¬ ∀ tc ∈ calls, tc.id ∈ answered := by
        rw [← allContains_eq_true answered calls, hall]
        simp
      refine ⟨c, calls, ⟨rfl, rfl⟩, hne, hnall, ?_⟩
      rcases Bool.and_eq_false_iff.mp hext with hA | hB
      · rw [← allExt_eq_true answered ext calls, hA]
        simp
      · have hnilext : ext = [] := by
          simpa [List.isEmpty_iff] using hB
        intro hP
        apply hnall
        intro tc htc
        by_contra hid
        exact absurd (hP tc htc hid) (by simp [hnilext])
    · rintro ⟨content, calls1, ⟨hc, hcalls⟩, hne, hnall, hnP⟩
      subst hcalls
      refine ⟨⟨hne, ?_⟩, ?_⟩
      · rw [← Bool.not_eq_true]
        intro h
        exact hnall ((allContains_eq_true answered calls).mp h)
      · apply Bool.and_eq_false_iff.mpr
        left
        rw [← Bool.not_eq_true]
        intro h
        exact hnP ((allExt_eq_true answered ext calls).mp h)

/-- C3: sanitization only removes messages from the tail (the
survivors are an unchanged prefix), every removed message is an
assistant message whose tool-call requests are not all matched by
tool-results and whose unmatched calls are not all external, and a
trailing assistant message carrying tool-call requests is preserved
exactly when all of its unmatched calls name external tools. -/
theorem C3_sanitize_messages_spec (msgs : List Msg) (ext : List String) :
    ∃ k, sanitize_messages msgs ext = msgs.take k ∧
      (∀ m ∈ msgs.drop k, ∃ content calls, m = Msg.ai content calls ∧ calls ≠ [] ∧
        ¬ (∀ tc ∈ calls, tc.id ∈ answeredIds msgs) ∧
        ¬ (∀ tc ∈ calls, tc.id ∉ answeredIds msgs → tc.name ∈ ext)) ∧
      (∀ content calls, msgs.getLast? = some (.ai content calls) → calls ≠ [] →
        (sanitize_messages msgs ext = msgs ↔
          ∀ tc ∈ calls, tc.id ∉ answeredIds msgs → tc.name ∈ ext)) := by
  obtain ⟨j, hj, hbad⟩ := sanitizeRev_drop (answeredIds msgs) ext msgs.reverse
  refine ⟨msgs.length - j, ?_, ?_, ?_⟩
  · show (sanitizeRev (answeredIds msgs) ext msgs.reverse).reverse = _
    rw [hj, ← List.rdrop_eq_reverse_drop_reverse]
    rfl
  · intro m hm
    have hm' : m ∈ (msgs.reverse.take j).reverse := by
      rw [← List.rtake_eq_reverse_take_reverse]
      exact hm
    exact (shouldPop_iff _ _ _).mp (hbad m (List.mem_reverse.mp hm'))
  · intro content calls hlast hne
    have hhead : msgs.reverse.head? = some (.ai content calls) := by
      rw [List.head?_reverse]
      exact hlast
    cases hrev : msgs.reverse with
    | nil =>
      rw [hrev] at hhead
      simp at hhead
    | cons m0 rest =>
      rw [hrev] at hhead
      simp only [List.head?_cons, Option.some.injEq] at hhead
      subst hhead
      by_cases hpop :
          shouldPop (answeredIds msgs) ext (Msg.ai content calls) = true
      · constructor
        · intro heq
          exfalso
          have hlen1 : (sanitize_messages msgs ext).length ≤ rest.length := by
            show (sanitizeRev (answeredIds msgs) ext msgs.reverse).reverse.length ≤ _
            rw [List.length_reverse, hrev]
            simp only [sanitizeRev, if_pos hpop]
            exact sanitizeRev_length_le _ _ _
          have hlen2 : msgs.length = rest.length + 1 := by
            rw [← List.length_reverse msgs, hrev]
            rfl
          rw [heq] at hlen1
          omega
        · intro hP
          exfalso
          obtain ⟨content', calls', heq', _, _, hnP'⟩ := (shouldPop_iff _ _ _).mp hpop
          injection heq' with h1 h2
          subst h2
          exact hnP' hP
      · have hres : sanitize_messages msgs ext = msgs := by
          show (sanitizeRev (answeredIds msgs) ext msgs.reverse).reverse = msgs
          rw [hrev]
          simp only [sanitizeRev, if_neg hpop]
          rw [← hrev, List.reverse_reverse]
        refine ⟨fun _ => ?_, fun _ => hres⟩
        by_contra hnP
        apply hpop
        refine (shouldPop_iff _ _ _).mpr ⟨content, calls, rfl, hne, ?_, hnP⟩
        push_neg at hnP
        obtain ⟨tc, htc, hid, _⟩ := hnP
        intro hall
        exact hid (hall tc htc)

/-- Witness for C3: a thread ending in an assistant message whose
single unmatched call names an external tool is preserved. -/
theorem C3_sanitize_messages_spec_witness :
    sanitize_messages
        [Msg.human "hi", Msg.ai "txt" [⟨"c1", "ext_tool", []⟩]] ["ext_tool"] =
      [Msg.human "hi", Msg.ai "txt" [⟨"c1", "ext_tool", []⟩]] := by
  obtain ⟨k, h1, h2, h3⟩ := C3_sanitize_messages_spec
    [Msg.human "hi", Msg.ai "txt" [⟨"c1", "ext_tool", []⟩]] ["ext_tool"]
  refine (h3 "txt" [⟨"c1", "ext_tool", []⟩] rfl (by simp)).mpr ?_
  intro tc htc hid
  rw [List.mem_singleton] at htc
  subst htc
  simp

/-! ## C2: cancellation repair (`mainagent.py` `_stream_worker`) -/

/-- Content of the stub tool-result synthesized on cancellation
(`mainagent.py` line 368). -/
def stubContent : String := "⚠️ 工具调用被用户终止"

/-- Suffix appended to the partial streamed text (`mainagent.py`
line 379). -/
def terminatedSuffix : String := "\n\n⚠️ （回复被用户终止）"

/-- The tool-call repair step of the `asyncio.CancelledError` handler
(`mainagent.py` lines 360-375): when the last persisted message is an
assistant message with a non-empty `tool_calls` list, append one stub
tool-result per call, bound to its call id, in order. -/
def cancelRepair (msgs : List Msg) : List Msg :=
  match msgs.getLast? with
  | some (.ai _ calls) =>
    if calls.isEmpty then msgs
    else msgs ++ calls.map fun tc => Msg.tool stubContent tc.id
  | _ => msgs

/-- The whole cancellation cleanup (`mainagent.py` lines 358-383):
repair the tool calls, then persist the collected partial tokens (if
any) as a closing assistant message. -/
def cancelCleanup (msgs : List Msg) (collectedText : String) : List Msg :=
  let m1 := cancelRepair msgs
  if collectedText.isEmpty then m1
  else m1 ++ [Msg.ai (collectedText ++ terminatedSuffix) []]

/-- The last assistant message of a thread, with its tool calls. -/
def lastAssistant : List Msg → Option (String × List ToolCall)
  | [] => none
  | m :: rest =>
    match lastAssistant rest with
    | some r => some r
    | none =>
      match m with
      | .ai c calls => some (c, calls)
      | _ => none

/-- The §3 invariant at the tail of a thread: every tool call of the
trailing assistant message has a matching tool-result somewhere in
the thread. -/
def trailingAssistantSatisfied (msgs : List Msg) : Prop :=
  ∀ content calls, lastAssistant msgs = some (content, calls) →
    ∀ tc ∈ calls, tc.id ∈ answeredIds msgs

theorem lastAssistant_append (l1 l2 : List Msg) :
    lastAssistant (l1 ++ l2) =
      match lastAssistant l2 with
      | some r => some r
      | none => lastAssistant l1 := by
  induction l1 with
  | nil =>
    cases h : lastAssistant l2 <;> simp [lastAssistant, h]
  | cons m rest ih =>
    show (match lastAssistant (rest ++ l2) with
      | some r => some r
      | none => match m with | .ai c calls => some (c, calls) | _ => none) = _
    rw [ih]
    cases h : lastAssistant l2 <;> cases h2 : lastAssistant rest <;>
      simp [lastAssistant, h, h2]

theorem lastAssistant_toolStubs (calls : List ToolCall) :
    lastAssistant (calls.map fun tc => Msg.tool stubContent tc.id) = none := by
  induction calls with
  | nil => rfl
  | cons tc rest ih =>
    show (match lastAssistant (rest.map fun tc => Msg.tool stubContent tc.id) with
      | some r => some r
      | none => none) = none
    rw [ih]

theorem lastAssistant_of_getLast_ai (msgs : List Msg) (c : String)
    (calls : List ToolCall) (h : msgs.getLast? = some (.ai c calls)) :
    lastAssistant msgs = some (c, calls) := by
  induction msgs with
  | nil => simp at h
  | cons m rest ih =>
    cases rest with
    | nil =>
      simp only [List.getLast?_singleton, Option.some.injEq] at h
      subst h
      rfl
    | cons m2 rest2 =>
      rw [List.getLast?_cons_cons] at h
      have := ih h
      show (match lastAssistant (m2 :: rest2) with
        | some r => some r
        | none => match m with | .ai c calls => some (c, calls) | _ => none) =
        some (c, calls)
      rw [this]

theorem answeredIds_append (l1 l2 : List Msg) :
    answeredIds (l1 ++ l2) = answeredIds l1 ++ answeredIds l2 :=
  List.filterMap_append l1 l2 _

theorem answeredIds_toolStubs (calls : List ToolCall) :
    answeredIds (calls.map fun tc => Msg.tool stubContent tc.id) =
      calls.map ToolCall.id := by
  induction calls with
  | nil => rfl
  | cons tc rest ih =>
    show tc.id :: answeredIds (rest.map fun tc => Msg.tool stubContent tc.id) = _
    rw [ih]
    rfl

/-- C2: when a streaming turn is cancelled while the last persisted
message is an assistant message whose tool-call requests are all
unanswered (the only shape a persisted thread can have with pending
calls, since tool-results always directly follow their requests), the
cleanup appends exactly one stub tool-result per pending call, bound
to its call id and in request order, optionally followed by one
plain assistant message holding the partial text — and afterwards the
thread's trailing assistant message has no unsatisfied tool-calls. -/
theorem C2_cancel_repair (msgs : List Msg) (content collectedText : String)
    (calls : List ToolCall)
    (hlast : msgs.getLast? = some (.ai content calls))
    (hne : calls ≠ [])
    (_hpending : ∀ tc ∈ calls, tc.id ∉ answeredIds msgs) :
    (∃ extra,
      cancelCleanup msgs collectedText =
        msgs ++ (calls.map fun tc => Msg.tool stubContent tc.id) ++ extra ∧
      (extra = [] ∨ ∃ t, extra = [Msg.ai t []])) ∧
    trailingAssistantSatisfied (cancelCleanup msgs collectedText) := by
  have hrep : cancelRepair msgs =
      msgs ++ calls.map fun tc => Msg.tool stubContent tc.id := by
    unfold cancelRepair
    rw [hlast]
    show (if calls.isEmpty = true then msgs
      else msgs ++ calls.map fun tc => Msg.tool stubContent tc.id) = _
    rw [if_neg (by simpa [List.isEmpty_iff] using hne)]
  have hsat : ∀ extra, (extra = [] ∨ ∃ t, extra = [Msg.ai t []]) →
      trailingAssistantSatisfied
        (msgs ++ (calls.map fun tc => Msg.tool stubContent tc.id) ++ extra) := by
    intro extra hextra c' calls' hla tc htc
    rcases hextra with hnil | ⟨t, hext⟩
    · subst hnil
      rw [List.append_nil] at hla ⊢
      rw [lastAssistant_append, lastAssistant_toolStubs,
        lastAssistant_of_getLast_ai msgs content calls hlast] at hla
      injection hla with hla
      rw [Prod.mk.injEq] at hla
      rw [answeredIds_append, answeredIds_toolStubs]
      apply List.mem_append_right
      rw [← hla.2] at htc
      exact List.mem_map_of_mem ToolCall.id htc
    · subst hext
      rw [List.append_assoc, lastAssistant_append] at hla
      have : lastAssistant ((calls.map fun tc => Msg.tool stubContent tc.id) ++
          [Msg.ai t []]) = some (t, []) := by
        rw [lastAssistant_append, lastAssistant_toolStubs]
        rfl
      rw [this] at hla
      injection hla with hla
      rw [Prod.mk.injEq] at hla
      rw [← hla.2] at htc
      simp at htc
  unfold cancelCleanup
  by_cases hcol : collectedText.isEmpty
  · rw [if_pos hcol, hrep]
    refine ⟨⟨[], by rw [List.append_nil], Or.inl rfl⟩, ?_⟩
    have := hsat [] (Or.inl rfl)
    rwa [List.append_nil] at this
  · rw [if_neg hcol, hrep]
    exact ⟨⟨[Msg.ai (collectedText ++ terminatedSuffix) []], rfl,
      Or.inr ⟨_, rfl⟩⟩, hsat _ (Or.inr ⟨_, rfl⟩)⟩

/-- Witness for C2: a thread ending in an assistant message with one
pending call, cancelled with partial text "hel". -/
theorem C2_cancel_repair_witness :
    (∃ extra,
      cancelCleanup [Msg.human "q", Msg.ai "" [⟨"c1", "run_command", []⟩]] "hel" =
        [Msg.human "q", Msg.ai "" [⟨"c1", "run_command", []⟩]] ++
          ([⟨"c1", "run_command", []⟩] : List ToolCall).map
            (fun tc => Msg.tool stubContent tc.id) ++ extra ∧
      (extra = [] ∨ ∃ t, extra = [Msg.ai t []])) ∧
    trailingAssistantSatisfied
      (cancelCleanup [Msg.human "q", Msg.ai "" [⟨"c1", "run_command", []⟩]] "hel") :=
  C2_cancel_repair [Msg.human "q", Msg.ai "" [⟨"c1", "run_command", []⟩]] ""
    "hel" [⟨"c1", "run_command", []⟩] rfl (by simp)
    (by intro tc htc; rw [List.mem_singleton] at htc; subst htc; simp [answeredIds])

/-! ## C4: `UserAwareToolNode.__call__` (`agent.py` lines 56-107) -/

/-- Tools that receive an automatic `username` injection
(`agent.py` lines 21-31). -/
def USER_INJECTED_TOOLS : List String :=
  ["list_files", "read_file", "write_file", "append_file", "delete_file",
    "run_command", "run_python_code",
    "add_alarm", "list_alarms", "delete_alarm",
    "set_push_key", "send_push_notification", "get_push_status",
    "set_public_url", "get_public_url", "clear_public_url"]

/-- Argument injection for allowed calls (`agent.py` lines 81-85):
`username` for the user-scoped tools, `session_id` additionally for
`add_alarm`.  The Python dict assignment is modelled as appending to
the insertion-ordered map. -/
def injectArgs (user_id session_id : String) (tc : ToolCall) : ToolCall :=
  let tc1 :=
    if USER_INJECTED_TOOLS.contains tc.name then
      { tc with args := tc.args ++ [("username", user_id)] }
    else tc
  if tc.name = "add_alarm" then
    { tc1 with args := tc1.args ++ [("session_id", session_id)] }
  else tc1

/-- The runtime enable check (`agent.py` lines 66-77): `None` means
all tools allowed; otherwise the call's name must be in the enabled
set. -/
def enabledOK (enabled : Option (List String)) (tc : ToolCall) : Bool :=
  match enabled with
  | none => true
  | some es => es.contains tc.name

/-- U+0027, the ASCII apostrophe used around the tool name below. -/
def apos : String := String.singleton (Char.ofNat 39)

/-- Content of the short-circuit `ToolMessage` for a blocked call
(`agent.py` line 95). -/
def disabledContent (name : String) : String :=
  "❌ 工具 " ++ apos ++ name ++ apos ++
    " 当前已被禁用。这通常是为了保护您的系统安全或优化当前会话资源。如果您确实需要此功能，请在管理面板中将其开启。同时，您可以告诉我您的最终目标，我会尝试用其他已启用的工具为您寻找替代方案。"

/-- `UserAwareToolNode.__call__` on an assistant message carrying
`calls` (`agent.py` lines 56-107): one pass separates blocked from
allowed calls, preserving order inside each class; blocked calls are
answered first with the disabled explanation; allowed calls (with
injected arguments) are answered by the wrapped
`langgraph` `ToolNode`, abstracted as `execTool`, which produces one
tool-result per call in order. -/
def userAwareToolNode (execTool : ToolCall → String)
    (enabled : Option (List String)) (user_id session_id : String)
    (calls : List ToolCall) : List Msg :=
  let blocked := calls.filter fun tc => !enabledOK enabled tc
  let allowed := calls.filter fun tc => enabledOK enabled tc
  (blocked.map fun tc => Msg.tool (disabledContent tc.name) tc.id) ++
    allowed.map fun tc => Msg.tool (execTool (injectArgs user_id session_id tc)) tc.id

/-- C4 counterexample: with `enabled_tools = ["list_files"]` and the
request order `[list_files, run_command]`, the emitted tool-results
are bound to ids `["id2", "id1"]` — the blocked call is answered
first — so the node does *not* reply in request order as the claim
states. -/
theorem C4_request_order_counterexample :
    ¬ (answeredIds
        (userAwareToolNode (fun _ => "ok") (some ["list_files"]) "u1" "s1"
          [⟨"id1", "list_files", []⟩, ⟨"id2", "run_command", []⟩]) =
      ([⟨"id1", "list_files", []⟩, ⟨"id2", "run_command", []⟩] : List ToolCall).map
        ToolCall.id) := by
  intro h
  have h2 : (["id2", "id1"] : List String) = ["id1", "id2"] := h
  simp at h2

theorem answeredIds_toolMap (f : ToolCall → String) (l : List ToolCall) :
    answeredIds (l.map fun tc => Msg.tool (f tc) tc.id) = l.map ToolCall.id := by
  induction l with
  | nil => rfl
  | cons tc rest ih =>
    show tc.id :: answeredIds (rest.map fun tc => Msg.tool (f tc) tc.id) = _
    rw [ih]
    rfl

/-- C4 (amended): the node returns exactly one tool-result per
request, each bound to its request's call-id — but ordered with all
blocked-call results first (in request order among themselves)
followed by the dispatched results (in request order among
themselves), rather than in overall request order; requests outside
the enabled set are answered with the disabled explanation and are
never dispatched (their results do not involve `execTool`), and
`enabled = none` dispatches everything. -/
theorem C4_tool_node_results (execTool : ToolCall → String)
    (enabled : Option (List String)) (user_id session_id : String)
    (calls : List ToolCall) :
    (answeredIds (userAwareToolNode execTool enabled user_id session_id calls)).Perm
      (calls.map ToolCall.id) ∧
    answeredIds (userAwareToolNode execTool enabled user_id session_id calls) =
      ((calls.filter fun tc => !enabledOK enabled tc).map ToolCall.id) ++
        ((calls.filter fun tc => enabledOK enabled tc).map ToolCall.id) ∧
    (∀ tc ∈ calls, enabledOK enabled tc = false →
      Msg.tool (disabledContent tc.name) tc.id ∈
        userAwareToolNode execTool enabled user_id session_id calls) ∧
    (∀ tc ∈ calls, enabledOK enabled tc = true →
      Msg.tool (execTool (injectArgs user_id session_id tc)) tc.id ∈
        userAwareToolNode execTool enabled user_id session_id calls) := by
  have hids : answeredIds (userAwareToolNode execTool enabled user_id session_id calls) =
      ((calls.filter fun tc => !enabledOK enabled tc).map ToolCall.id) ++
        ((calls.filter fun tc => enabledOK enabled tc).map ToolCall.id) := by
    unfold userAwareToolNode
    rw [answeredIds_append, answeredIds_toolMap, answeredIds_toolMap]
  refine ⟨?_, hids, ?_, ?_⟩
  · rw [hids, ← List.map_append]
    refine List.Perm.map ToolCall.id ?_
    have := List.filter_append_perm (fun tc => !enabledOK enabled tc) calls
    simpa [Bool.not_not] using this
  · intro tc htc hblocked
    apply List.mem_append_left
    refine List.mem_map_of_mem _ ?_
    rw [List.mem_filter]
    exact ⟨htc, by rw [hblocked]; rfl⟩
  · intro tc htc hallowed
    apply List.mem_append_right
    refine List.mem_map_of_mem _ ?_
    rw [List.mem_filter]
    exact ⟨htc, hallowed⟩

/-- Witness for C4 at the counterexample's input: the blocked
`run_command` call is answered with the disabled explanation, the
allowed `list_files` call is dispatched, and the two result ids are a
permutation of the two request ids. -/
theorem C4_tool_node_results_witness :
    (answeredIds
      (userAwareToolNode (fun _ => "ok") (some ["list_files"]) "u1" "s1"
        [⟨"id1", "list_files", []⟩, ⟨"id2", "run_command", []⟩])).Perm
      (([⟨"id1", "list_files", []⟩, ⟨"id2", "run_command", []⟩] : List ToolCall).map
        ToolCall.id) ∧
    Msg.tool (disabledContent "run_command") "id2" ∈
      userAwareToolNode (fun _ => "ok") (some ["list_files"]) "u1" "s1"
        [⟨"id1", "list_files", []⟩, ⟨"id2", "run_command", []⟩] := by
  have h := C4_tool_node_results (fun _ => "ok") (some ["list_files"]) "u1" "s1"
    [⟨"id1", "list_files", []⟩, ⟨"id2", "run_command", []⟩]
  exact ⟨h.1, h.2.2.1 ⟨"id2", "run_command", []⟩ (by simp) (by decide)⟩

/-! ## C8: the request a firing cron job sends (`src/time.py`) -/

/-- An outbound HTTP POST as the scheduler builds it: target URL,
JSON body (string map) and extra request headers. -/
structure HttpPost where
  url : String
  jsonBody : List (String × String)
  headers : List (String × String)
deriving Repr, DecidableEq

/-- `AGENT_URL` (`time.py` line 30). -/
def AGENT_URL : String := "http://127.0.0.1:8000/system_trigger"

/-- `trigger_agent` (`time.py` lines 32-39): fires
`client.post(AGENT_URL, json={"user_id": user_id, "text": text},
timeout=10.0)` — two body fields and no extra headers. -/
def trigger_agent (user_id text : String) : HttpPost :=
  { url := AGENT_URL
    jsonBody := [("user_id", user_id), ("text", text)]
    headers := [] }

/-- A stored cron job (`CronTask` model, `time.py` lines 16-19; note
it has no `session_id` field). -/
structure CronTask where
  user_id : String
  cron : String
  text : String
deriving Repr, DecidableEq

/-- `add_task` (`time.py` lines 52-67) registers the job with
`args=[task.user_id, task.text]`; on fire the scheduler calls
`trigger_agent(*args)`. -/
def firedRequest (task : CronTask) : HttpPost :=
  trigger_agent task.user_id task.text

/-- Header lookup as the agent's FastAPI `Header(None)` binding
performs it. -/
def lookupHeader (r : HttpPost) (k : String) : Option String :=
  (r.headers.find? fun p => p.1 == k).map Prod.snd

/-- `verify_internal_token` (`mainagent.py` lines 74-77):
`if not token or token != INTERNAL_TOKEN: raise 403`. -/
def verify_internal_token (token : Option String) (internalToken : String) : Bool :=
  match token with
  | none => false
  | some t => !t.isEmpty && t == internalToken

/-- C8 (divergence documented): the body of the request a firing cron
job sends contains exactly the keys `user_id` and `text` — no
`session_id` — and the request carries no `X-Internal-Token` header,
so the agent's `/system_trigger` token check rejects it regardless of
the configured internal token. -/
theorem C8_fired_request_contents (task : CronTask) (internalToken : String) :
    (firedRequest task).jsonBody.map Prod.fst = ["user_id", "text"] ∧
    "session_id" ∉ (firedRequest task).jsonBody.map Prod.fst ∧
    (firedRequest task).headers = [] ∧
    verify_internal_token (lookupHeader (firedRequest task) "X-Internal-Token")
      internalToken = false := by
  refine ⟨rfl, ?_, rfl, rfl⟩
  simp [firedRequest, trigger_agent]

end MiniTimebot
